import Mathlib

/-!
Verification of `boring-sys/build/prefix.rs` (symbol prefixing of the vendored
BoringSSL static archives).

The Rust source is shallowly embedded over `List Char` (a Rust `&str`/`String`
is modelled as its list of unicode scalar values; Rust compares `String`s by
UTF-8 bytes, which orders identically to comparing scalar values).  Paths are
modelled as the character list of their textual form, and the effectful body of
`apply_symbol_prefixes` is modelled as a trace of events parameterised by an
environment describing the file system and the outcome of the external tool
invocations.
-/

namespace BoringSys

/-! ### Basic string operations used by the source

`splitOnP` models splitting a string at every character satisfying `p`
(each separator produces a boundary, so consecutive separators produce empty
chunks) — the common core of Rust's `str::lines` and `str::split_whitespace`. -/

/-- Prepend a character to the first chunk of a chunk list. -/
def consHead (x : Char) : List (List Char) → List (List Char)
  | [] => [[x]]
  | t :: ts => (x :: t) :: ts

/-- Split a character list at every character satisfying `p`.  Always returns
at least one (possibly empty) chunk. -/
def splitOnP (p : Char → Bool) : List Char → List (List Char)
  | [] => [[]]
  | x :: xs => if p x then [] :: splitOnP p xs else consHead x (splitOnP p xs)

/-- Model of Rust `str::split_whitespace`: split at whitespace characters and
drop the empty chunks.  (Rust uses Unicode `char::is_whitespace`;
`Char.isWhitespace` covers the ASCII subset, which is all the source's
nm-output processing can encounter in the claims considered here.) -/
def splitWhitespace (s : List Char) : List (List Char) :=
  (splitOnP Char.isWhitespace s).filter (fun t => !t.isEmpty)

/-- Strip one trailing carriage return, as Rust's `str::lines` does for lines
terminated by `\r\n`. -/
def stripCR (l : List Char) : List Char :=
  if l.getLast? = some '\r' then l.dropLast else l

/-- Second phase of `str::lines` on the chunks produced by splitting at `'\n'`:
every chunk but the last was `'\n'`-terminated (so a trailing `'\r'` is
stripped); a final empty chunk (input empty or ending in `'\n'`) is dropped,
a final non-empty chunk is kept as-is. -/
def linesAux : List (List Char) → List (List Char)
  | [] => []
  | [last] => if last = [] then [] else [last]
  | chunk :: rest => stripCR chunk :: linesAux rest

/-- Model of Rust `str::lines`. -/
def rustLines (s : List Char) : List (List Char) :=
  linesAux (splitOnP (fun c => c = '\n') s)

/-- Substring containment, modelling Rust `str::contains` with a literal
pattern: some suffix of the haystack starts with the needle. -/
def containsSub (hay needle : List Char) : Bool :=
  hay.tails.any (fun t => needle.isPrefixOf t)

/-! ### The symbol prefix rule (`prefix.rs` lines 1–21) -/

/-- `SYMBOL_PREFIX` from `prefix.rs`: prefix applied to all BoringSSL symbols. -/
def SYMBOL_PREFIX_VAL : List Char := "BSSL".data

/-- Embedding of `SymbolPrefixCallbacks::generated_link_name_override`
(`prefix.rs` lines 15–21): `Some(format!("{SYMBOL_PREFIX}_{}", item_info.name))`. -/
def generated_link_name_override (name : List Char) : Option (List Char) :=
  some (SYMBOL_PREFIX_VAL ++ '_' :: name)

/-! ### Symbol filtering and mapping (`prefix.rs` lines 54–71) -/

/-- The six nm type markers the source keeps: `[" T ", " D ", " B ", " C ", " R ", " W "]`. -/
def globalMarkers : List (List Char) :=
  [" T ".data, " D ".data, " B ".data, " C ".data, " R ".data, " W ".data]

/-- The line filter of `prefix.rs` lines 58–62: keep a line iff it contains one
of the six global type markers. -/
def keepLine (line : List Char) : Bool :=
  globalMarkers.any (fun marker => containsSub line marker)

/-- The symbol extraction of `prefix.rs` line 64:
`line.split_whitespace().nth(2)`. -/
def lineSymbol (line : List Char) : Option (List Char) :=
  (splitWhitespace line)[2]?

/-- Rust `sym.starts_with('_')` (`prefix.rs` line 66). -/
def startsWithUnderscore (sym : List Char) : Bool :=
  match sym with
  | '_' :: _ => true
  | _ => false

/-- The full per-line filtering stage of `prefix.rs` lines 55–66: split the nm
output into lines, keep the marker lines, take the third whitespace token, and
drop leading-underscore internals. -/
def symbolsOf (nmOutput : List Char) : List (List Char) :=
  (((rustLines nmOutput).filter keepLine).filterMap lineSymbol).filter
    (fun sym => !startsWithUnderscore sym)

/-- The mapping line of `prefix.rs` line 68: `format!("{sym} {SYMBOL_PREFIX}_{sym}")`. -/
def mappingLine (sym : List Char) : List Char :=
  sym ++ ' ' :: (SYMBOL_PREFIX_VAL ++ '_' :: sym)

/-- Lexicographic `≤` on character lists by scalar value — Rust's `Ord` on
`String` (byte-wise comparison of UTF-8, which coincides with scalar-value
lexicographic order). -/
def strLe : List Char → List Char → Bool
  | [], _ => true
  | _ :: _, [] => false
  | a :: as, b :: bs => if a < b then true else if b < a then false else strLe as bs

/-- Strict lexicographic `<` on character lists by scalar value. -/
def strLt : List Char → List Char → Bool
  | [], [] => false
  | [], _ :: _ => true
  | _ :: _, [] => false
  | a :: as, b :: bs => if a < b then true else if b < a then false else strLt as bs

/-- Sorted insertion (auxiliary to `sortLines`). -/
def insertSorted (x : List Char) : List (List Char) → List (List Char)
  | [] => [x]
  | y :: ys => if strLe x y then x :: y :: ys else y :: insertSorted x ys

/-- Model of `mappings.sort()` (`prefix.rs` line 70).  Rust's sort is a stable
merge sort under `String`'s total order; since that order is antisymmetric,
any sorting algorithm produces the same list, and we model it by insertion
sort. -/
def sortLines : List (List Char) → List (List Char)
  | [] => []
  | x :: xs => insertSorted x (sortLines xs)

/-- Model of `mappings.dedup()` (`prefix.rs` line 71): remove consecutive
duplicates. -/
def dedupLines : List (List Char) → List (List Char)
  | [] => []
  | [x] => [x]
  | x :: y :: rest =>
    if x = y then dedupLines (y :: rest) else x :: dedupLines (y :: rest)

/-- The complete Symbol Filter & Mapper (`prefix.rs` lines 54–71): filtered
symbols, formatted as `old new` lines, sorted and deduplicated. -/
def buildMappings (nmOutput : List Char) : List (List Char) :=
  dedupLines (sortLines ((symbolsOf nmOutput).map mappingLine))

/-- The Mapping Persister's file content (`prefix.rs` lines 77–79): each
mapping line followed by a newline (`writeln!`). -/
def mappingFileContent (mappings : List (List Char)) : List Char :=
  (mappings.map (fun m => m ++ ['\n'])).flatten

/-- The original name recorded in a mapping line: everything before the first
space. -/
def originalOf (line : List Char) : List Char :=
  line.takeWhile (fun c => !(c = ' '))

/-- Parse one mapping-file line back into a pair by whitespace splitting. -/
def parseMappingLine (line : List Char) : Option (List Char × List Char) :=
  match splitWhitespace line with
  | [a, b] => some (a, b)
  | _ => none

/-- Re-parse a whole mapping file: split into lines, parse each line. -/
def parseMappingFile (content : List Char) : List (List Char × List Char) :=
  (rustLines content).filterMap parseMappingLine

/-! ### The order used by `mappings.sort()` / `mappings.dedup()` -/

/-- `strLe` as a binary relation. -/
def LeP (a b : List Char) : Prop := strLe a b = true

/-- `strLt` as a binary relation. -/
def LtP (a b : List Char) : Prop := strLt a b = true

theorem strLe_refl : ∀ a, strLe a a = true
  | [] => rfl
  | x :: xs => by simp [strLe, lt_self_iff_false, strLe_refl xs]

theorem strLe_total : ∀ a b, strLe a b = true ∨ strLe b a = true
  | [], _ => Or.inl rfl
  | _ :: _, [] => Or.inr rfl
  | x :: xs, y :: ys => by
    rcases lt_trichotomy x y with h | h | h
    · exact Or.inl (by simp [strLe, h])
    · subst h
      rcases strLe_total xs ys with h' | h'
      · exact Or.inl (by simp [strLe, lt_self_iff_false, h'])
      · exact Or.inr (by simp [strLe, lt_self_iff_false, h'])
    · exact Or.inr (by simp [strLe, h])

theorem strLe_antisymm : ∀ a b, strLe a b = true → strLe b a = true → a = b
  | [], [], _, _ => rfl
  | [], _ :: _, _, h2 => by simp [strLe] at h2
  | _ :: _, [], h1, _ => by simp [strLe] at h1
  | x :: xs, y :: ys, h1, h2 => by
    rcases lt_trichotomy x y with h | h | h
    · simp [strLe, h, lt_asymm h] at h2
    · subst h
      simp only [strLe, lt_self_iff_false, if_false] at h1 h2
      exact congrArg (x :: ·) (strLe_antisymm xs ys h1 h2)
    · simp [strLe, h, lt_asymm h] at h1

theorem strLe_trans : ∀ a b c, strLe a b = true → strLe b c = true → strLe a c = true
  | [], _, _, _, _ => rfl
  | _ :: _, [], _, h1, _ => by simp [strLe] at h1
  | _ :: _, _ :: _, [], _, h2 => by simp [strLe] at h2
  | x :: xs, y :: ys, z :: zs, h1, h2 => by
    rcases lt_trichotomy x y with hxy | hxy | hxy
    · rcases lt_trichotomy y z with hyz | hyz | hyz
      · simp [strLe, lt_trans hxy hyz]
      · subst hyz; simp [strLe, hxy]
      · simp [strLe, hyz, lt_asymm hyz] at h2
    · subst hxy
      rcases lt_trichotomy x z with hxz | hxz | hxz
      · simp [strLe, hxz]
      · subst hxz
        simp only [strLe, lt_self_iff_false, if_false] at h1 h2 ⊢
        exact strLe_trans xs ys zs h1 h2
      · simp [strLe, hxz, lt_asymm hxz] at h2
    · simp [strLe, hxy, lt_asymm hxy] at h1

theorem strLt_iff : ∀ a b, strLt a b = true ↔ (strLe a b = true ∧ a ≠ b)
  | [], [] => by simp [strLt, strLe]
  | [], _ :: _ => by simp [strLt, strLe]
  | _ :: _, [] => by simp [strLt, strLe]
  | x :: xs, y :: ys => by
    rcases lt_trichotomy x y with h | h | h
    · simp [strLt, strLe, h, h.ne]
    · subst h
      simp only [strLt, strLe, lt_self_iff_false, if_false, ne_eq, List.cons.injEq,
        true_and]
      exact strLt_iff xs ys
    · simp [strLt, strLe, h, lt_asymm h]

theorem strLt_of_le_ne {a b : List Char} (h1 : strLe a b = true) (h2 : a ≠ b) :
    strLt a b = true :=
  (strLt_iff a b).mpr ⟨h1, h2⟩

theorem LtP.toLe {a b : List Char} (h : LtP a b) : LeP a b :=
  ((strLt_iff a b).mp h).1

theorem LtP.toNe {a b : List Char} (h : LtP a b) : a ≠ b :=
  ((strLt_iff a b).mp h).2

theorem strLt_asymm {a b : List Char} (h1 : strLt a b = true) (h2 : strLt b a = true) :
    False := by
  rcases (strLt_iff a b).mp h1 with ⟨hab, hne⟩
  rcases (strLt_iff b a).mp h2 with ⟨hba, _⟩
  exact hne (strLe_antisymm a b hab hba)

theorem strLt_total_of_ne {a b : List Char} (h : a ≠ b) :
    strLt a b = true ∨ strLt b a = true := by
  rcases strLe_total a b with h' | h'
  · exact Or.inl (strLt_of_le_ne h' h)
  · exact Or.inr (strLt_of_le_ne h' (Ne.symm h))

/-! ### Facts about `sortLines` and `dedupLines` -/

theorem mem_insertSorted (x a : List Char) :
    ∀ l, a ∈ insertSorted x l ↔ a = x ∨ a ∈ l
  | [] => by simp [insertSorted]
  | y :: ys => by
    by_cases h : strLe x y = true
    · simp [insertSorted, h, List.mem_cons]
    · simp only [insertSorted, if_neg h, List.mem_cons, mem_insertSorted x a ys]
      tauto

theorem pairwise_insertSorted (x : List Char) :
    ∀ l, l.Pairwise LeP → (insertSorted x l).Pairwise LeP
  | [], _ => by simp [insertSorted]
  | y :: ys, hp => by
    obtain ⟨hy, hys⟩ := List.pairwise_cons.mp hp
    by_cases h : strLe x y = true
    · rw [insertSorted, if_pos h]
      refine List.pairwise_cons.mpr ⟨?_, hp⟩
      intro b hb
      rcases List.mem_cons.mp hb with rfl | hb
      · exact h
      · exact strLe_trans x y b h (hy b hb)
    · rw [insertSorted, if_neg h]
      refine List.pairwise_cons.mpr ⟨?_, pairwise_insertSorted x ys hys⟩
      intro b hb
      rcases (mem_insertSorted x b ys).mp hb with hbx | hb
      · subst hbx
        exact (strLe_total _ _).resolve_left h
      · exact hy b hb

theorem sortLines_pairwise : ∀ l, (sortLines l).Pairwise LeP
  | [] => List.Pairwise.nil
  | x :: xs => pairwise_insertSorted x _ (sortLines_pairwise xs)

theorem mem_sortLines (a : List Char) : ∀ l, a ∈ sortLines l ↔ a ∈ l
  | [] => Iff.rfl
  | x :: xs => by
    rw [sortLines, mem_insertSorted x a (sortLines xs), mem_sortLines a xs]
    simp [List.mem_cons]

theorem sortLines_eq_self : ∀ l, l.Pairwise LeP → sortLines l = l
  | [], _ => rfl
  | x :: xs, hp => by
    obtain ⟨hx, hxs⟩ := List.pairwise_cons.mp hp
    rw [sortLines, sortLines_eq_self xs hxs]
    cases xs with
    | nil => rfl
    | cons y ys =>
      rw [insertSorted, if_pos (show strLe x y = true from hx y (List.mem_cons_self y ys))]

theorem mem_dedupLines (a : List Char) : ∀ l, a ∈ dedupLines l ↔ a ∈ l
  | [] => Iff.rfl
  | [x] => by simp [dedupLines]
  | x :: y :: rest => by
    by_cases h : x = y
    · rw [dedupLines, if_pos h, mem_dedupLines a (y :: rest)]
      subst h
      simp only [List.mem_cons]
      tauto
    · rw [dedupLines, if_neg h]
      simp only [List.mem_cons, mem_dedupLines a (y :: rest)]

theorem dedupLines_pairwise : ∀ l, l.Pairwise LeP → (dedupLines l).Pairwise LtP
  | [], _ => List.Pairwise.nil
  | [x], _ => by simp [dedupLines]
  | x :: y :: rest, hp => by
    obtain ⟨hx, hrest⟩ := List.pairwise_cons.mp hp
    by_cases h : x = y
    · rw [dedupLines, if_pos h]
      exact dedupLines_pairwise (y :: rest) hrest
    · rw [dedupLines, if_neg h]
      refine List.pairwise_cons.mpr ⟨?_, dedupLines_pairwise (y :: rest) hrest⟩
      intro b hb
      have hb' : b ∈ y :: rest := (mem_dedupLines b (y :: rest)).mp hb
      have hxb : strLe x b = true := hx b hb'
      have hxb_ne : x ≠ b := by
        intro heq
        rw [← heq] at hb'
        rcases List.mem_cons.mp hb' with hxy | hmem
        · exact h hxy
        · have h1 : strLe x y = true := hx y (List.mem_cons_self y rest)
          have h2 : strLe y x = true := (List.pairwise_cons.mp hrest).1 x hmem
          exact h (strLe_antisymm x y h1 h2)
      exact strLt_of_le_ne hxb hxb_ne

theorem dedupLines_eq_self : ∀ l, l.Pairwise LtP → dedupLines l = l
  | [], _ => rfl
  | [_], _ => by simp [dedupLines]
  | x :: y :: rest, hp => by
    obtain ⟨hx, hrest⟩ := List.pairwise_cons.mp hp
    have hne : x ≠ y := LtP.toNe (hx y (List.mem_cons_self y rest))
    rw [dedupLines, if_neg hne, dedupLines_eq_self (y :: rest) hrest]

/-- The produced mapping is always strictly sorted (as a list of whole lines):
`sort` makes it weakly sorted and `dedup` removes the duplicates. -/
theorem buildMappings_pairwise (nm : List Char) : (buildMappings nm).Pairwise LtP :=
  dedupLines_pairwise _ (sortLines_pairwise _)

theorem mem_buildMappings (nm line : List Char) :
    line ∈ buildMappings nm ↔ line ∈ (symbolsOf nm).map mappingLine := by
  rw [buildMappings, mem_dedupLines, mem_sortLines]

/-! ### Facts about splitting and tokens -/

/-- The prefixed counterpart of a symbol name: `BSSL_<name>`. -/
def prefixedName (s : List Char) : List Char := SYMBOL_PREFIX_VAL ++ '_' :: s

theorem generated_link_name_override_eq (name : List Char) :
    generated_link_name_override name = some (prefixedName name) := rfl

theorem mappingLine_eq (s : List Char) : mappingLine s = s ++ ' ' :: prefixedName s := rfl

theorem splitOnP_ne_nil (p : Char → Bool) : ∀ l, splitOnP p l ≠ []
  | [] => by simp [splitOnP]
  | x :: xs => by
    cases hx : p x with
    | true => simp [splitOnP, hx]
    | false =>
      rcases hsp : splitOnP p xs with _ | ⟨t, ts⟩
      · exact absurd hsp (splitOnP_ne_nil p xs)
      · simp [splitOnP, hx, hsp, consHead]

theorem splitOnP_all_not (p : Char → Bool) :
    ∀ l, (∀ c ∈ l, p c = false) → splitOnP p l = [l]
  | [], _ => rfl
  | x :: xs, h => by
    have hx : p x = false := h x (List.mem_cons_self x xs)
    have ih := splitOnP_all_not p xs (fun c hc => h c (List.mem_cons_of_mem x hc))
    simp [splitOnP, hx, ih, consHead]

theorem splitOnP_sep (p : Char → Bool) (c : Char) (hc : p c = true) :
    ∀ l r, (∀ a ∈ l, p a = false) → splitOnP p (l ++ c :: r) = l :: splitOnP p r
  | [], r, _ => by simp [splitOnP, hc]
  | x :: xs, r, h => by
    have hx : p x = false := h x (List.mem_cons_self x xs)
    have ih := splitOnP_sep p c hc xs r (fun a ha => h a (List.mem_cons_of_mem x ha))
    simp [splitOnP, hx, ih, consHead]

theorem splitOnP_sep_free (p : Char → Bool) :
    ∀ l, ∀ t ∈ splitOnP p l, ∀ c ∈ t, p c = false
  | [] => by
    intro t ht c hct
    rw [splitOnP] at ht
    rcases List.mem_cons.mp ht with rfl | ht'
    · cases hct
    · cases ht'
  | x :: xs => by
    intro t ht c hct
    cases hx : p x with
    | true =>
      rw [splitOnP, if_pos hx] at ht
      rcases List.mem_cons.mp ht with rfl | ht'
      · cases hct
      · exact splitOnP_sep_free p xs t ht' c hct
    | false =>
      rw [splitOnP, if_neg (by simp [hx])] at ht
      rcases hsp : splitOnP p xs with _ | ⟨t0, ts⟩
      · exact absurd hsp (splitOnP_ne_nil p xs)
      · rw [hsp] at ht
        simp only [consHead] at ht
        rcases List.mem_cons.mp ht with rfl | ht'
        · rcases List.mem_cons.mp hct with rfl | hct'
          · exact hx
          · refine splitOnP_sep_free p xs t0 ?_ c hct'
            rw [hsp]
            exact List.mem_cons_self t0 ts
        · refine splitOnP_sep_free p xs t ?_ c hct
          rw [hsp]
          exact List.mem_cons_of_mem t0 ht'

theorem splitWhitespace_token (l t : List Char) (ht : t ∈ splitWhitespace l) :
    t ≠ [] ∧ ∀ c ∈ t, Char.isWhitespace c = false := by
  rcases List.mem_filter.mp ht with ⟨ht', hne⟩
  refine ⟨?_, splitOnP_sep_free _ l t ht'⟩
  cases t with
  | nil => simp at hne
  | cons _ _ => simp

theorem filter_pair_ne (o q : List Char) (ho : o ≠ []) (hq : q ≠ []) :
    List.filter (fun t => !t.isEmpty) [o, q] = [o, q] := by
  cases o with
  | nil => exact absurd rfl ho
  | cons oc os =>
    cases q with
    | nil => exact absurd rfl hq
    | cons qc qs => rfl

/-- Splitting `<token> <token>` at whitespace recovers the two tokens. -/
theorem splitWhitespace_pair (o q : List Char) (ho : o ≠ []) (hq : q ≠ [])
    (hof : ∀ c ∈ o, Char.isWhitespace c = false)
    (hqf : ∀ c ∈ q, Char.isWhitespace c = false) :
    splitWhitespace (o ++ ' ' :: q) = [o, q] := by
  rw [splitWhitespace, splitOnP_sep Char.isWhitespace ' ' (by decide) o q hof,
    splitOnP_all_not _ q hqf]
  exact filter_pair_ne o q ho hq

theorem takeWhile_append_stop (f : Char → Bool) :
    ∀ s r x, (∀ c ∈ s, f c = true) → f x = false → (s ++ x :: r).takeWhile f = s
  | [], r, x, _, hx => by simp [hx]
  | c :: cs, r, x, h, hx => by
    have hc : f c = true := h c (List.mem_cons_self c cs)
    simp only [List.cons_append, List.takeWhile_cons_of_pos hc]
    rw [takeWhile_append_stop f cs r x (fun a ha => h a (List.mem_cons_of_mem c ha)) hx]

theorem originalOf_mappingLine (s : List Char)
    (hs : ∀ c ∈ s, Char.isWhitespace c = false) : originalOf (mappingLine s) = s := by
  rw [originalOf, mappingLine_eq]
  refine takeWhile_append_stop _ s (prefixedName s) ' ' ?_ (by decide)
  intro c hc
  have : ¬(c = ' ') := by
    intro e
    have := hs c hc
    rw [e] at this
    exact absurd this (by decide)
  simp [this]

theorem mappingLine_inj {a b : List Char}
    (ha : ∀ c ∈ a, Char.isWhitespace c = false)
    (hb : ∀ c ∈ b, Char.isWhitespace c = false)
    (h : mappingLine a = mappingLine b) : a = b := by
  have h' := congrArg originalOf h
  rwa [originalOf_mappingLine a ha, originalOf_mappingLine b hb] at h'

/-- Every symbol produced by the filtering stage is a non-empty
whitespace-free token. -/
theorem symbolsOf_wsfree (nm s : List Char) (hs : s ∈ symbolsOf nm) :
    s ≠ [] ∧ ∀ c ∈ s, Char.isWhitespace c = false := by
  rcases List.mem_filter.mp hs with ⟨hs', _⟩
  rcases List.mem_filterMap.mp hs' with ⟨line, ⟨hline, hsym⟩⟩
  have hmem : s ∈ splitWhitespace line := by
    rw [lineSymbol] at hsym
    exact List.getElem?_mem hsym
  exact splitWhitespace_token line s hmem

/-! ### Monotonicity of the `old new` line format -/

/-- A character strictly above `' '` is not whitespace. -/
theorem wsfree_of_gt_space {c : Char} (h : ' ' < c) : Char.isWhitespace c = false := by
  have h1 : ¬(c = ' ') := by
    intro e
    rw [e] at h
    exact lt_irrefl _ h
  have h2 : ¬(c = '\t') := by
    intro e
    rw [e] at h
    exact absurd h (by decide)
  have h3 : ¬(c = '\r') := by
    intro e
    rw [e] at h
    exact absurd h (by decide)
  have h4 : ¬(c = '\n') := by
    intro e
    rw [e] at h
    exact absurd h (by decide)
  simp [Char.isWhitespace, h1, h2, h3, h4]

/-- Appending ` <suffix>` to two names whose characters are above `' '`
preserves strict lexicographic order. -/
theorem strLt_append (u v : List Char) :
    ∀ a b, strLt a b = true → (∀ c ∈ b, ' ' < c) →
      strLt (a ++ ' ' :: u) (b ++ ' ' :: v) = true
  | [], [], h, _ => Bool.noConfusion h
  | [], y :: ys, _, hb => by
    have hy : ' ' < y := hb y (List.mem_cons_self y ys)
    simp [strLt, hy]
  | _ :: _, [], h, _ => Bool.noConfusion h
  | x :: xs, y :: ys, h, hb => by
    rcases lt_trichotomy x y with hxy | hxy | hxy
    · simp [strLt, hxy]
    · subst hxy
      simp only [strLt, lt_self_iff_false, if_false, List.cons_append] at h ⊢
      exact strLt_append u v xs ys h (fun c hc => hb c (List.mem_cons_of_mem x hc))
    · simp [strLt, hxy, lt_asymm hxy] at h

theorem mappingLine_strLt {a b : List Char}
    (hb : ∀ c ∈ b, ' ' < c) (h : strLt a b = true) :
    strLt (mappingLine a) (mappingLine b) = true :=
  strLt_append (prefixedName a) (prefixedName b) a b h hb

theorem strLt_irrefl (l : List Char) : ¬ strLt l l = true := by
  intro h
  exact ((strLt_iff l l).mp h).2 rfl

theorem strLt_of_mappingLine_strLt {a b : List Char}
    (ha : ∀ c ∈ a, ' ' < c) (hb : ∀ c ∈ b, ' ' < c)
    (h : strLt (mappingLine a) (mappingLine b) = true) : strLt a b = true := by
  by_cases hab : a = b
  · subst hab
    exact absurd h (strLt_irrefl _)
  · rcases strLt_total_of_ne hab with h' | h'
    · exact h'
    · exact absurd (mappingLine_strLt ha h') (fun hc => strLt_asymm h hc)

/-! ### Lines of a serialized mapping file -/

theorem linesAux_cons_cons (a b : List Char) (rest : List (List Char)) :
    linesAux (a :: b :: rest) = stripCR a :: linesAux (b :: rest) := rfl

theorem linesAux_terminated : ∀ chunks, linesAux (chunks ++ [[]]) = chunks.map stripCR
  | [] => rfl
  | [_] => rfl
  | c :: d :: rest => by
    have ih := linesAux_terminated (d :: rest)
    simp only [List.cons_append] at ih ⊢
    rw [linesAux_cons_cons, ih]
    simp [List.map_cons]

theorem splitNl_content :
    ∀ lines, (∀ l ∈ lines, ∀ c ∈ l, ¬(c = '\n')) →
      splitOnP (fun c => c = '\n') (mappingFileContent lines) = lines ++ [[]]
  | [], _ => rfl
  | l :: rest, h => by
    have hl : ∀ c ∈ l, decide (c = '\n') = false := fun c hc =>
      decide_eq_false (h l (List.mem_cons_self l rest) c hc)
    have ih := splitNl_content rest (fun l' hl' => h l' (List.mem_cons_of_mem l hl'))
    have hcontent : mappingFileContent (l :: rest) = l ++ '\n' :: mappingFileContent rest := by
      simp [mappingFileContent]
    rw [hcontent, splitOnP_sep _ '\n' (by decide) l _ hl, ih, List.cons_append]

theorem stripCR_eq_self {l : List Char} (h : ∀ c ∈ l, ¬(c = '\r')) : stripCR l = l := by
  have hl : ¬(l.getLast? = some '\r') := by
    intro hl
    exact h '\r' (List.mem_of_getLast?_eq_some hl) rfl
  simp [stripCR, hl]

theorem filterMap_id_of_some {α : Type} (f : α → Option α) :
    ∀ l : List α, (∀ a ∈ l, f a = some a) → l.filterMap f = l
  | [], _ => rfl
  | a :: as, h => by
    rw [List.filterMap_cons, h a (List.mem_cons_self a as),
      filterMap_id_of_some f as (fun b hb => h b (List.mem_cons_of_mem a hb))]

theorem parseMappingLine_pair (o q : List Char) (ho : o ≠ []) (hq : q ≠ [])
    (hof : ∀ c ∈ o, Char.isWhitespace c = false)
    (hqf : ∀ c ∈ q, Char.isWhitespace c = false) :
    parseMappingLine (o ++ ' ' :: q) = some (o, q) := by
  rw [parseMappingLine, splitWhitespace_pair o q ho hq hof hqf]

/-! ### UTF-8 decoding of the subprocess output

`run_command` captures raw bytes; `prefix.rs` line 54 converts them with
`String::from_utf8_lossy`.  The standard library's decoder is modelled here:
well-formed sequences decode to their scalar value, ill-formed input produces
the replacement character `U+FFFD` and decoding resumes (the model resumes
after the offending lead byte where Rust skips the maximal valid prefix of a
sequence; both are total and agree on the inputs used below). -/

/-- UTF-8 continuation byte test: `0x80 ≤ b < 0xC0`. -/
def contByte (b : Nat) : Bool := 0x80 ≤ b && b < 0xC0

/-- Second-byte validity for a three-byte sequence with lead byte `b0`
(excludes overlong encodings and surrogates). -/
def valid3 (b0 b1 : Nat) : Bool :=
  (b0 = 0xE0 && 0xA0 ≤ b1 && b1 ≤ 0xBF) ||
  (0xE1 ≤ b0 && b0 ≤ 0xEC && contByte b1) ||
  (b0 = 0xED && 0x80 ≤ b1 && b1 ≤ 0x9F) ||
  (0xEE ≤ b0 && b0 ≤ 0xEF && contByte b1)

/-- Second-byte validity for a four-byte sequence with lead byte `b0`
(excludes overlong encodings and values above `U+10FFFF`). -/
def valid4 (b0 b1 : Nat) : Bool :=
  (b0 = 0xF0 && 0x90 ≤ b1 && b1 ≤ 0xBF) ||
  (0xF1 ≤ b0 && b0 ≤ 0xF3 && contByte b1) ||
  (b0 = 0xF4 && 0x80 ≤ b1 && b1 ≤ 0x8F)

/-- The replacement character `U+FFFD`. -/
def replChar : Char := Char.ofNat 0xFFFD

/-- Total lossy UTF-8 decoder (model of `String::from_utf8_lossy`). -/
def utf8Lossy : List Nat → List Char
  | [] => []
  | b0 :: rest =>
    if b0 < 0x80 then Char.ofNat b0 :: utf8Lossy rest
    else if 0xC2 ≤ b0 && b0 ≤ 0xDF then
      match rest with
      | [] => [replChar]
      | b1 :: rest2 =>
        if contByte b1 then
          Char.ofNat ((b0 - 0xC0) * 64 + (b1 - 0x80)) :: utf8Lossy rest2
        else replChar :: utf8Lossy (b1 :: rest2)
    else if 0xE0 ≤ b0 && b0 ≤ 0xEF then
      match rest with
      | [] => [replChar]
      | [b1] => if valid3 b0 b1 then [replChar] else replChar :: utf8Lossy [b1]
      | b1 :: b2 :: rest3 =>
        if valid3 b0 b1 then
          if contByte b2 then
            Char.ofNat (((b0 - 0xE0) * 64 + (b1 - 0x80)) * 64 + (b2 - 0x80)) ::
              utf8Lossy rest3
          else replChar :: utf8Lossy (b2 :: rest3)
        else replChar :: utf8Lossy (b1 :: b2 :: rest3)
    else if 0xF0 ≤ b0 && b0 ≤ 0xF4 then
      match rest with
      | [] => [replChar]
      | [b1] => if valid4 b0 b1 then [replChar] else replChar :: utf8Lossy [b1]
      | [b1, b2] =>
        if valid4 b0 b1 then
          if contByte b2 then [replChar] else replChar :: utf8Lossy [b2]
        else replChar :: utf8Lossy [b1, b2]
      | b1 :: b2 :: b3 :: rest4 =>
        if valid4 b0 b1 then
          if contByte b2 then
            if contByte b3 then
              Char.ofNat ((((b0 - 0xF0) * 64 + (b1 - 0x80)) * 64 + (b2 - 0x80)) * 64 +
                (b3 - 0x80)) :: utf8Lossy rest4
            else replChar :: utf8Lossy (b3 :: rest4)
          else replChar :: utf8Lossy (b2 :: b3 :: rest4)
        else replChar :: utf8Lossy (b1 :: b2 :: b3 :: rest4)
    else replChar :: utf8Lossy rest

/-- The parsing front end applied to raw subprocess output bytes. -/
def symbolsOfBytes (bytes : List Nat) : List (List Char) :=
  symbolsOf (utf8Lossy bytes)

/-! ### Claims about the pure filtering/mapping pipeline -/

/-- Claim C1: every pair recorded in the produced Rename Mapping has
`prefixed_name = "BSSL_" ++ original_name`, and the Binding Name Rewriter
(`generated_link_name_override`) is total, never `none`, and independently
computes exactly that prefixed name for every input name. -/
theorem c1_prefix_consistency (nm line : List Char) (h : line ∈ buildMappings nm) :
    (∃ s, s ∈ symbolsOf nm ∧ line = s ++ ' ' :: ("BSSL_".data ++ s) ∧
      generated_link_name_override s = some ("BSSL_".data ++ s)) ∧
    ∀ name, generated_link_name_override name = some ("BSSL_".data ++ name) := by
  constructor
  · rcases List.mem_map.mp ((mem_buildMappings nm line).mp h) with ⟨s, hs, hline⟩
    exact ⟨s, hs, hline.symm, rfl⟩
  · intro name
    rfl

theorem c1_prefix_consistency_witness :
    (∃ s, s ∈ symbolsOf ("0000 T EVP_PKEY_free").data ∧
      "EVP_PKEY_free BSSL_EVP_PKEY_free".data = s ++ ' ' :: ("BSSL_".data ++ s) ∧
      generated_link_name_override s = some ("BSSL_".data ++ s)) ∧
    ∀ name, generated_link_name_override name = some ("BSSL_".data ++ name) :=
  c1_prefix_consistency ("0000 T EVP_PKEY_free").data
    "EVP_PKEY_free BSSL_EVP_PKEY_free".data (by decide)

/-- Claim C2: a symbol-dump line is retained only if it contains one of the
six global type markers; the symbol is the third whitespace token; leading
underscores are discarded.  On the three scenario lines the result is exactly
`["SSL_new"]`. -/
theorem c2_symbol_dump_parsing :
    symbolsOf ("0000000000000000 T SSL_new\n0000000000000008 t SSL_free\n0000000000000010 D _internal_state").data
      = ["SSL_new".data] ∧
    keepLine ("0000000000000008 t SSL_free").data = false ∧
    keepLine ("0000000000000010 D _internal_state").data = true ∧
    lineSymbol ("0000000000000010 D _internal_state").data = some ("_internal_state").data ∧
    startsWithUnderscore ("_internal_state").data = true ∧
    lineSymbol ("0000000000000000 T SSL_new").data = some ("SSL_new").data := by
  decide

/-- Claim C3 (amended): when every character of every filtered symbol name is
greater than `' '` (true of every printable identifier; rules out raw control
characters), the mapping holds exactly one entry per distinct original name
and its entries are strictly sorted by original name. -/
theorem c3_mapping_sorted_dedup (nm : List Char)
    (H : ∀ s ∈ symbolsOf nm, ∀ c ∈ s, ' ' < c) :
    List.Pairwise (fun a b => strLt a b = true) ((buildMappings nm).map originalOf) ∧
    ((buildMappings nm).map originalOf).Nodup ∧
    ∀ s, s ∈ symbolsOf nm ↔ s ∈ (buildMappings nm).map originalOf := by
  have hline : ∀ line ∈ buildMappings nm,
      ∃ s, s ∈ symbolsOf nm ∧ line = mappingLine s := by
    intro line hl
    rcases List.mem_map.mp ((mem_buildMappings nm line).mp hl) with ⟨s, hs, hline⟩
    exact ⟨s, hs, hline.symm⟩
  have hsorted : List.Pairwise (fun a b => strLt a b = true)
      ((buildMappings nm).map originalOf) := by
    rw [List.pairwise_map]
    refine (buildMappings_pairwise nm).imp_of_mem ?_
    intro la lb hla hlb hlt
    rcases hline la hla with ⟨sa, hsa, rfl⟩
    rcases hline lb hlb with ⟨sb, hsb, rfl⟩
    rw [originalOf_mappingLine sa (symbolsOf_wsfree nm sa hsa).2,
      originalOf_mappingLine sb (symbolsOf_wsfree nm sb hsb).2]
    exact strLt_of_mappingLine_strLt (H sa hsa) (H sb hsb) hlt
  refine ⟨hsorted, hsorted.imp (fun h => LtP.toNe h), ?_⟩
  intro s
  constructor
  · intro hs
    refine List.mem_map.mpr ⟨mappingLine s, ?_, ?_⟩
    · exact (mem_buildMappings nm (mappingLine s)).mpr
        (List.mem_map.mpr ⟨s, hs, rfl⟩)
    · exact originalOf_mappingLine s (symbolsOf_wsfree nm s hs).2
  · intro hs
    rcases List.mem_map.mp hs with ⟨line, hl, horig⟩
    rcases hline line hl with ⟨s', hs', rfl⟩
    rw [originalOf_mappingLine s' (symbolsOf_wsfree nm s' hs').2] at horig
    rw [← horig]
    exact hs'

theorem c3_mapping_sorted_dedup_witness :
    List.Pairwise (fun a b => strLt a b = true)
      ((buildMappings ("0 T SSL_new\n0 T EVP_new\n0 T EVP_new").data).map originalOf) ∧
    ((buildMappings ("0 T SSL_new\n0 T EVP_new\n0 T EVP_new").data).map originalOf).Nodup ∧
    ∀ s, s ∈ symbolsOf ("0 T SSL_new\n0 T EVP_new\n0 T EVP_new").data ↔
      s ∈ (buildMappings ("0 T SSL_new\n0 T EVP_new\n0 T EVP_new").data).map originalOf :=
  c3_mapping_sorted_dedup ("0 T SSL_new\n0 T EVP_new\n0 T EVP_new").data (by decide)

/-- Claim C3, as stated, is false: a symbol name containing a control
character (here `"a\u0001"`) sorts after its own prefix as a name but before
it as an `old new` line, so the mapping produced from this nm output is not
sorted by original name. -/
theorem c3_counterexample :
    ¬ List.Pairwise (fun a b => strLe a b = true)
      ((buildMappings ("0 T a\u0001\n0 T a").data).map originalOf) := by
  intro hp
  have h1 : (buildMappings ("0 T a\u0001\n0 T a").data).map originalOf
      = ["a\u0001".data, "a".data] := by decide
  rw [h1] at hp
  have h2 := (List.pairwise_cons.mp hp).1 ("a").data
    (List.mem_cons_self ("a").data [])
  exact absurd h2 (by decide)

/-- Claim C7: serializing a Rename Mapping in the persister's format (one
`original<space>prefixed` pair per line, newline-terminated, no header) and
re-parsing the text by line- and whitespace-splitting recovers exactly the
same pairs. -/
theorem c7_mapping_roundtrip (ps : List (List Char × List Char))
    (h : ∀ q ∈ ps, q.1 ≠ [] ∧ q.2 ≠ [] ∧ (∀ c ∈ q.1, Char.isWhitespace c = false) ∧
      ∀ c ∈ q.2, Char.isWhitespace c = false) :
    parseMappingFile
      (mappingFileContent (ps.map (fun q => q.1 ++ ' ' :: q.2))) = ps := by
  have hnl : ∀ l ∈ ps.map (fun q => q.1 ++ ' ' :: q.2), ∀ c ∈ l, ¬(c = '\n') := by
    intro l hl c hc
    rcases List.mem_map.mp hl with ⟨q, hq, hline⟩
    rcases h q hq with ⟨_, _, h1f, h2f⟩
    intro e
    rw [← hline] at hc
    rcases List.mem_append.mp hc with hc1 | hc2
    · have := h1f c hc1
      rw [e] at this
      exact absurd this (by decide)
    · rcases List.mem_cons.mp hc2 with hsp | hc2'
      · rw [e] at hsp
        exact absurd hsp (by decide)
      · have := h2f c hc2'
        rw [e] at this
        exact absurd this (by decide)
  rw [parseMappingFile, rustLines, splitNl_content _ hnl, linesAux_terminated,
    List.map_map, List.filterMap_map]
  refine filterMap_id_of_some _ ps ?_
  intro q hq
  rcases h q hq with ⟨h1, h2, h1f, h2f⟩
  have hcr : ∀ c ∈ q.1 ++ ' ' :: q.2, ¬(c = '\r') := by
    intro c hc e
    rcases List.mem_append.mp hc with hc1 | hc2
    · have := h1f c hc1
      rw [e] at this
      exact absurd this (by decide)
    · rcases List.mem_cons.mp hc2 with hsp | hc2'
      · rw [e] at hsp
        exact absurd hsp (by decide)
      · have := h2f c hc2'
        rw [e] at this
        exact absurd this (by decide)
  show parseMappingLine (stripCR (q.1 ++ ' ' :: q.2)) = some q
  rw [stripCR_eq_self hcr, parseMappingLine_pair q.1 q.2 h1 h2 h1f h2f]

theorem c7_mapping_roundtrip_witness :
    parseMappingFile
      (mappingFileContent
        (([("SSL_new".data, "BSSL_SSL_new".data)]).map (fun q => q.1 ++ ' ' :: q.2)))
      = [("SSL_new".data, "BSSL_SSL_new".data)] :=
  c7_mapping_roundtrip [("SSL_new".data, "BSSL_SSL_new".data)] (by decide)

/-- Claim C8: the Symbol Filter & Mapper is deterministic — equal symbol-dump
inputs give byte-identical mapping-file content — and its sort/dedup
normalisation is idempotent on its own output. -/
theorem c8_mapping_deterministic (nm₁ nm₂ : List Char) (h : nm₁ = nm₂) :
    mappingFileContent (buildMappings nm₁) = mappingFileContent (buildMappings nm₂) ∧
    dedupLines (sortLines (buildMappings nm₁)) = buildMappings nm₁ := by
  subst h
  refine ⟨rfl, ?_⟩
  have hp := buildMappings_pairwise nm₁
  rw [sortLines_eq_self _ (hp.imp (fun h => LtP.toLe h)), dedupLines_eq_self _ hp]

theorem c8_mapping_deterministic_witness :
    (("0 T a").data = ("0 T a").data) ∧
    (mappingFileContent (buildMappings ("0 T a").data) =
        mappingFileContent (buildMappings ("0 T a").data) ∧
      dedupLines (sortLines (buildMappings ("0 T a").data)) =
        buildMappings ("0 T a").data) :=
  ⟨rfl, c8_mapping_deterministic ("0 T a").data ("0 T a").data rfl⟩

/-- Claim C9: the symbol-list parsing stage is total over arbitrary
subprocess output bytes — ill-formed UTF-8 decodes to replacement characters
instead of failing — and a marker line with fewer than three whitespace
tokens is silently dropped (`nth(2)` is `none`) rather than an error. -/
theorem c9_parser_total (line : List Char)
    (_h1 : keepLine line = true) (h2 : (splitWhitespace line).length < 3) :
    lineSymbol line = none ∧
    utf8Lossy [0xFF, 0x41] = [replChar, 'A'] ∧
    utf8Lossy [0xC3] = [replChar] ∧
    ∀ bytes, symbolsOfBytes bytes = symbolsOf (utf8Lossy bytes) := by
  refine ⟨?_, by decide, by decide, fun bytes => rfl⟩
  rw [lineSymbol]
  exact List.getElem?_eq_none (by omega)

theorem c9_parser_total_witness :
    (keepLine (" T ").data = true ∧ (splitWhitespace (" T ").data).length < 3) ∧
    (lineSymbol (" T ").data = none ∧
      utf8Lossy [0xFF, 0x41] = [replChar, 'A'] ∧
      utf8Lossy [0xC3] = [replChar] ∧
      ∀ bytes, symbolsOfBytes bytes = symbolsOf (utf8Lossy bytes)) :=
  ⟨⟨by decide, by decide⟩, c9_parser_total (" T ").data (by decide) (by decide)⟩

/-! ### The effectful pipeline of `apply_symbol_prefixes`

The function's side effects (probing the file system, launching `nm` and
`objcopy` through the crate's `run_command` helper, writing the mapping file)
are modelled as an event trace parameterised by an environment.  File
creation/writes are modelled as succeeding (their failure paths are further
`expect` aborts not exercised by any claim). -/

/-- The configuration the build step receives: exposes the output directory. -/
structure Config where
  out_dir : List Char

/-- `PathBuf::join` with a relative component, modelled textually. -/
def pathJoin (p q : List Char) : List Char := p ++ '/' :: q

/-- `static_lib_dirs` (`prefix.rs` lines 29–33). -/
def static_lib_dirs (c : Config) : List (List Char) :=
  [pathJoin c.out_dir "build".data,
   pathJoin (pathJoin c.out_dir "build".data) "ssl".data,
   pathJoin (pathJoin c.out_dir "build".data) "crypto".data]

/-- The six candidate archive paths (lines 35–41): each directory joined with
`libssl.a` and `libcrypto.a`, in `flat_map` order. -/
def candidatePaths (c : Config) : List (List Char) :=
  ((static_lib_dirs c).map
    (fun dir => [pathJoin dir "libssl.a".data, pathJoin dir "libcrypto.a".data])).flatten

/-- Modelled from the spec: the environment seen by `apply_symbol_prefixes` —
which paths exist on disk and the outcomes of the external tool invocations
made through the crate's `run_command` helper (declared in the build crate's
root, outside this tree; per the spec a tool that cannot be launched or exits
abnormally is a fatal error).  `nmResult = none` means the `nm` invocation
fails; `objcopyOk` tells, per archive, whether its `objcopy` invocation
succeeds. -/
structure BuildEnv where
  pathExists : List Char → Bool
  nmResult : Option (List Nat)
  objcopyOk : List Char → Bool

/-- `static_libs` (lines 35–43): the candidate paths that exist on disk. -/
def static_libs (env : BuildEnv) (c : Config) : List (List Char) :=
  (candidatePaths c).filter env.pathExists

/-- Observable events of the build step. -/
inductive BuildEvent where
  | warn : List Char → BuildEvent
  | runNm : List (List Char) → BuildEvent
  | createFile : List Char → BuildEvent
  | writeLine : List Char → List Char → BuildEvent
  | flushFile : List Char → BuildEvent
  | runObjcopy : List Char → List Char → BuildEvent
  | abort : List Char → BuildEvent
deriving DecidableEq

/-- The warning of `prefix.rs` line 46. -/
def noArchivesWarning : List Char :=
  "warning: no libssl.a/libcrypto.a archives found to prefix".data

/-- The `expect` message of `prefix.rs` line 52. -/
def nmFailMsg : List Char := "failed to run `nm` on BoringSSL archives".data

/-- The `expect` message of `prefix.rs` line 90. -/
def objcopyFailMsg : List Char := "failed to run `objcopy` to redefine symbols".data

/-- The mapping file path `out_dir/redefine_syms.txt` (line 73). -/
def mappingFilePath (c : Config) : List Char :=
  pathJoin c.out_dir "redefine_syms.txt".data

/-- The objcopy argument `--redefine-syms=<mapping file>` (line 86). -/
def redefineArg (mappingFile : List Char) : List Char :=
  "--redefine-syms=".data ++ mappingFile

/-- The per-archive objcopy loop (lines 83–90): one invocation per archive; a
failing invocation aborts (`expect`) so no later archive is processed. -/
def objcopyPhase (env : BuildEnv) (arg : List Char) : List (List Char) → List BuildEvent
  | [] => []
  | lib :: rest =>
    if env.objcopyOk lib then
      BuildEvent.runObjcopy arg lib :: objcopyPhase env arg rest
    else [BuildEvent.runObjcopy arg lib, BuildEvent.abort objcopyFailMsg]

/-- Event trace of `apply_symbol_prefixes` (`prefix.rs` lines 27–91). -/
def apply_symbol_prefixes (env : BuildEnv) (c : Config) : List BuildEvent :=
  if (static_libs env c).isEmpty then [BuildEvent.warn noArchivesWarning]
  else
    match env.nmResult with
    | none => [BuildEvent.runNm (static_libs env c), BuildEvent.abort nmFailMsg]
    | some out =>
      BuildEvent.runNm (static_libs env c) ::
        BuildEvent.createFile (mappingFilePath c) ::
        ((buildMappings (utf8Lossy out)).map
            (fun m => BuildEvent.writeLine (mappingFilePath c) m) ++
          BuildEvent.flushFile (mappingFilePath c) ::
            objcopyPhase env (redefineArg (mappingFilePath c)) (static_libs env c))

def isWarnEvent : BuildEvent → Bool
  | BuildEvent.warn _ => true
  | _ => false

def isNmEvent : BuildEvent → Bool
  | BuildEvent.runNm _ => true
  | _ => false

def isObjcopyEvent : BuildEvent → Bool
  | BuildEvent.runObjcopy _ _ => true
  | _ => false

/-- A subprocess invocation: `nm` or `objcopy`. -/
def isSubprocessEvent (e : BuildEvent) : Bool := isNmEvent e || isObjcopyEvent e

/-- A mapping-file operation: create, write or flush. -/
def isFileEvent : BuildEvent → Bool
  | BuildEvent.createFile _ => true
  | BuildEvent.writeLine _ _ => true
  | BuildEvent.flushFile _ => true
  | _ => false

/-! ### Trace lemmas -/

theorem apply_symbol_prefixes_run (env : BuildEnv) (c : Config) (out : List Nat)
    (hnm : env.nmResult = some out) (hne : static_libs env c ≠ []) :
    apply_symbol_prefixes env c =
      BuildEvent.runNm (static_libs env c) ::
        BuildEvent.createFile (mappingFilePath c) ::
        ((buildMappings (utf8Lossy out)).map
            (fun m => BuildEvent.writeLine (mappingFilePath c) m) ++
          BuildEvent.flushFile (mappingFilePath c) ::
            objcopyPhase env (redefineArg (mappingFilePath c)) (static_libs env c)) := by
  have hemp : (static_libs env c).isEmpty = false := List.isEmpty_eq_false.mpr hne
  rw [apply_symbol_prefixes, hnm, hemp]
  rfl

theorem objcopyPhase_split (env : BuildEnv) (arg bad : List Char)
    (post : List (List Char)) :
    ∀ pre, (∀ l ∈ pre, env.objcopyOk l = true) → env.objcopyOk bad = false →
      objcopyPhase env arg (pre ++ bad :: post) =
        pre.map (fun l => BuildEvent.runObjcopy arg l) ++
          [BuildEvent.runObjcopy arg bad, BuildEvent.abort objcopyFailMsg]
  | [], _, hbad => by simp [objcopyPhase, hbad]
  | l :: pre, h, hbad => by
    have hl : env.objcopyOk l = true := h l (List.mem_cons_self l pre)
    have ih := objcopyPhase_split env arg bad post pre
      (fun a ha => h a (List.mem_cons_of_mem l ha)) hbad
    simp [objcopyPhase, hl, ih]

theorem objcopyPhase_all_ok (env : BuildEnv) (arg : List Char) :
    ∀ libs, (∀ l ∈ libs, env.objcopyOk l = true) →
      objcopyPhase env arg libs = libs.map (fun l => BuildEvent.runObjcopy arg l)
  | [], _ => rfl
  | l :: libs, h => by
    have hl : env.objcopyOk l = true := h l (List.mem_cons_self l libs)
    have ih := objcopyPhase_all_ok env arg libs
      (fun a ha => h a (List.mem_cons_of_mem l ha))
    simp [objcopyPhase, hl, ih]

theorem objcopyPhase_events (env : BuildEnv) (arg : List Char) :
    ∀ libs, ∀ e ∈ objcopyPhase env arg libs,
      (∃ l, e = BuildEvent.runObjcopy arg l) ∨ e = BuildEvent.abort objcopyFailMsg
  | [], e, he => absurd he (List.not_mem_nil e)
  | l :: libs, e, he => by
    by_cases hl : env.objcopyOk l = true
    · rw [objcopyPhase, if_pos hl] at he
      rcases List.mem_cons.mp he with rfl | he'
      · exact Or.inl ⟨l, rfl⟩
      · exact objcopyPhase_events env arg libs e he'
    · rw [objcopyPhase, if_neg hl] at he
      rcases List.mem_cons.mp he with rfl | he'
      · exact Or.inl ⟨l, rfl⟩
      · rcases List.mem_cons.mp he' with rfl | he''
        · exact Or.inr rfl
        · exact absurd he'' (List.not_mem_nil e)

theorem filter_objcopy_writeLines (f : BuildEvent → Bool)
    (hf : ∀ mf m, f (BuildEvent.writeLine mf m) = false) (mf : List Char) :
    ∀ ms : List (List Char),
      (ms.map (fun m => BuildEvent.writeLine mf m)).filter f = []
  | [] => rfl
  | m :: ms => by
    simp only [List.map_cons, List.filter_cons, hf mf m, Bool.false_eq_true, if_false]
    exact filter_objcopy_writeLines f hf mf ms

theorem filter_runs_eq (f : BuildEvent → Bool)
    (hf : ∀ arg l, f (BuildEvent.runObjcopy arg l) = true) (arg : List Char) :
    ∀ libs : List (List Char),
      (libs.map (fun l => BuildEvent.runObjcopy arg l)).filter f =
        libs.map (fun l => BuildEvent.runObjcopy arg l)
  | [] => rfl
  | l :: libs => by
    simp only [List.map_cons, List.filter_cons, hf arg l, if_true]
    rw [filter_runs_eq f hf arg libs]

theorem filter_runs_nil (f : BuildEvent → Bool)
    (hf : ∀ arg l, f (BuildEvent.runObjcopy arg l) = false) (arg : List Char) :
    ∀ libs : List (List Char),
      (libs.map (fun l => BuildEvent.runObjcopy arg l)).filter f = []
  | [] => rfl
  | l :: libs => by
    simp only [List.map_cons, List.filter_cons, hf arg l, Bool.false_eq_true, if_false]
    exact filter_runs_nil f hf arg libs

/-! ### Claims about the effectful pipeline -/

/-- Claim C4: when none of the six candidate archive paths exists, the
pipeline emits exactly one warning, performs zero subprocess invocations,
creates no mapping file, and returns. -/
theorem c4_missing_archives (env : BuildEnv) (c : Config)
    (h : ∀ p ∈ candidatePaths c, env.pathExists p = false) :
    apply_symbol_prefixes env c = [BuildEvent.warn noArchivesWarning] ∧
    ((apply_symbol_prefixes env c).filter isWarnEvent).length = 1 ∧
    ((apply_symbol_prefixes env c).filter isSubprocessEvent).length = 0 ∧
    ∀ p, BuildEvent.createFile p ∉ apply_symbol_prefixes env c := by
  have hlibs : static_libs env c = [] := by
    rw [static_libs]
    exact List.filter_eq_nil_iff.mpr (fun a ha => by simp [h a ha])
  have htrace : apply_symbol_prefixes env c = [BuildEvent.warn noArchivesWarning] := by
    rw [apply_symbol_prefixes, hlibs]
    rfl
  refine ⟨htrace, ?_, ?_, ?_⟩
  · rw [htrace]
    rfl
  · rw [htrace]
    rfl
  · intro _p
    rw [htrace]
    simp

theorem c4_missing_archives_witness :
    apply_symbol_prefixes ⟨fun _ => false, none, fun _ => false⟩ ⟨"out".data⟩ =
        [BuildEvent.warn noArchivesWarning] ∧
    ((apply_symbol_prefixes ⟨fun _ => false, none, fun _ => false⟩
        ⟨"out".data⟩).filter isWarnEvent).length = 1 ∧
    ((apply_symbol_prefixes ⟨fun _ => false, none, fun _ => false⟩
        ⟨"out".data⟩).filter isSubprocessEvent).length = 0 ∧
    ∀ p, BuildEvent.createFile p ∉
      apply_symbol_prefixes ⟨fun _ => false, none, fun _ => false⟩ ⟨"out".data⟩ :=
  c4_missing_archives ⟨fun _ => false, none, fun _ => false⟩ ⟨"out".data⟩
    (fun _ _ => rfl)

/-- Claim C5: if the objcopy invocation for some archive fails, the build
aborts there — the trace ends at the abort, later archives in the pending
list get no objcopy invocation (exactly `pre.length + 1` objcopy events). -/
theorem c5_objcopy_abort (env : BuildEnv) (c : Config) (out : List Nat)
    (pre : List (List Char)) (bad : List Char) (post : List (List Char))
    (hnm : env.nmResult = some out)
    (hsplit : static_libs env c = pre ++ bad :: post)
    (hpre : ∀ l ∈ pre, env.objcopyOk l = true)
    (hbad : env.objcopyOk bad = false) :
    apply_symbol_prefixes env c =
      BuildEvent.runNm (pre ++ bad :: post) ::
        BuildEvent.createFile (mappingFilePath c) ::
        ((buildMappings (utf8Lossy out)).map
            (fun m => BuildEvent.writeLine (mappingFilePath c) m) ++
          BuildEvent.flushFile (mappingFilePath c) ::
            (pre.map
                (fun l => BuildEvent.runObjcopy (redefineArg (mappingFilePath c)) l) ++
              [BuildEvent.runObjcopy (redefineArg (mappingFilePath c)) bad,
               BuildEvent.abort objcopyFailMsg])) ∧
    ((apply_symbol_prefixes env c).filter isObjcopyEvent).length = pre.length + 1 ∧
    (apply_symbol_prefixes env c).getLast? = some (BuildEvent.abort objcopyFailMsg) := by
  have hne : static_libs env c ≠ [] := by
    rw [hsplit]
    intro hcontra
    exact absurd (List.append_eq_nil.mp hcontra).2 (List.cons_ne_nil bad post)
  have htrace := apply_symbol_prefixes_run env c out hnm hne
  rw [hsplit, objcopyPhase_split env _ bad post pre hpre hbad] at htrace
  refine ⟨htrace, ?_, ?_⟩
  · rw [htrace]
    simp only [List.filter_cons, List.filter_append]
    rw [filter_objcopy_writeLines isObjcopyEvent (fun _ _ => rfl) _ _,
      filter_runs_eq isObjcopyEvent (fun _ _ => rfl) _ _]
    simp [isObjcopyEvent]
  · rw [htrace]
    simp [List.getLast?_cons, List.getLast?_append]

theorem c5_objcopy_abort_witness :
    apply_symbol_prefixes ⟨fun _ => true, some [], fun _ => false⟩ ⟨"o".data⟩ =
      BuildEvent.runNm ([] ++ "o/build/libssl.a".data ::
          ["o/build/libcrypto.a".data, "o/build/ssl/libssl.a".data,
           "o/build/ssl/libcrypto.a".data, "o/build/crypto/libssl.a".data,
           "o/build/crypto/libcrypto.a".data]) ::
        BuildEvent.createFile (mappingFilePath ⟨"o".data⟩) ::
        ((buildMappings (utf8Lossy [])).map
            (fun m => BuildEvent.writeLine (mappingFilePath ⟨"o".data⟩) m) ++
          BuildEvent.flushFile (mappingFilePath ⟨"o".data⟩) ::
            (([] : List (List Char)).map
                (fun l => BuildEvent.runObjcopy (redefineArg (mappingFilePath ⟨"o".data⟩)) l) ++
              [BuildEvent.runObjcopy (redefineArg (mappingFilePath ⟨"o".data⟩))
                  "o/build/libssl.a".data,
               BuildEvent.abort objcopyFailMsg])) ∧
    ((apply_symbol_prefixes ⟨fun _ => true, some [], fun _ => false⟩
        ⟨"o".data⟩).filter isObjcopyEvent).length = ([] : List (List Char)).length + 1 ∧
    (apply_symbol_prefixes ⟨fun _ => true, some [], fun _ => false⟩
        ⟨"o".data⟩).getLast? = some (BuildEvent.abort objcopyFailMsg) :=
  c5_objcopy_abort ⟨fun _ => true, some [], fun _ => false⟩ ⟨"o".data⟩ [] []
    "o/build/libssl.a".data
    ["o/build/libcrypto.a".data, "o/build/ssl/libssl.a".data,
     "o/build/ssl/libcrypto.a".data, "o/build/crypto/libssl.a".data,
     "o/build/crypto/libcrypto.a".data]
    rfl (by decide) (fun l hl => absurd hl (List.not_mem_nil l)) rfl

/-- Claim C6: with at least one existing archive and a successful nm run, the
trace holds exactly one `nm` invocation, carrying all existing archive paths
as arguments, and exactly one `objcopy` invocation per existing archive, each
with `--redefine-syms=<mapping file>` followed by the archive path. -/
theorem c6_invocation_shape (env : BuildEnv) (c : Config) (out : List Nat)
    (hnm : env.nmResult = some out)
    (hne : static_libs env c ≠ [])
    (hok : ∀ l ∈ static_libs env c, env.objcopyOk l = true) :
    (apply_symbol_prefixes env c).filter isNmEvent =
      [BuildEvent.runNm (static_libs env c)] ∧
    (apply_symbol_prefixes env c).filter isObjcopyEvent =
      (static_libs env c).map
        (fun l => BuildEvent.runObjcopy (redefineArg (mappingFilePath c)) l) := by
  have htrace := apply_symbol_prefixes_run env c out hnm hne
  rw [objcopyPhase_all_ok env _ (static_libs env c) hok] at htrace
  constructor
  · rw [htrace]
    simp only [List.filter_cons, List.filter_append]
    rw [filter_objcopy_writeLines isNmEvent (fun _ _ => rfl) _ _,
      filter_runs_nil isNmEvent (fun _ _ => rfl) _ _]
    simp [isNmEvent]
  · rw [htrace]
    simp only [List.filter_cons, List.filter_append]
    rw [filter_objcopy_writeLines isObjcopyEvent (fun _ _ => rfl) _ _,
      filter_runs_eq isObjcopyEvent (fun _ _ => rfl) _ _]
    simp [isObjcopyEvent]

theorem c6_invocation_shape_witness :
    (apply_symbol_prefixes ⟨fun _ => true, some [], fun _ => true⟩
        ⟨"o".data⟩).filter isNmEvent =
      [BuildEvent.runNm (static_libs ⟨fun _ => true, some [], fun _ => true⟩ ⟨"o".data⟩)] ∧
    (apply_symbol_prefixes ⟨fun _ => true, some [], fun _ => true⟩
        ⟨"o".data⟩).filter isObjcopyEvent =
      (static_libs ⟨fun _ => true, some [], fun _ => true⟩ ⟨"o".data⟩).map
        (fun l => BuildEvent.runObjcopy (redefineArg (mappingFilePath ⟨"o".data⟩)) l) :=
  c6_invocation_shape ⟨fun _ => true, some [], fun _ => true⟩ ⟨"o".data⟩ []
    rfl (by decide) (fun l _ => rfl)

theorem pairwise_no_file_right :
    ∀ l : List BuildEvent, (∀ b ∈ l, isFileEvent b = false) →
      List.Pairwise (fun a b => ¬(isObjcopyEvent a = true ∧ isFileEvent b = true)) l
  | [], _ => List.Pairwise.nil
  | e :: l, h => by
    refine List.pairwise_cons.mpr
      ⟨?_, pairwise_no_file_right l (fun b hb => h b (List.mem_cons_of_mem e hb))⟩
    intro b hb hc
    rw [h b (List.mem_cons_of_mem e hb)] at hc
    exact Bool.noConfusion hc.2

theorem pairwise_split :
    ∀ l₁ l₂ : List BuildEvent,
      (∀ a ∈ l₁, isObjcopyEvent a = false) → (∀ b ∈ l₂, isFileEvent b = false) →
      List.Pairwise (fun a b => ¬(isObjcopyEvent a = true ∧ isFileEvent b = true))
        (l₁ ++ l₂)
  | [], l₂, _, h2 => by simpa using pairwise_no_file_right l₂ h2
  | e :: l, l₂, h1, h2 => by
    refine List.pairwise_cons.mpr
      ⟨?_, pairwise_split l l₂ (fun a ha => h1 a (List.mem_cons_of_mem e ha)) h2⟩
    intro b _ hc
    rw [h1 e (List.mem_cons_self e l)] at hc
    exact Bool.noConfusion hc.1

/-- Claim C10: in every trace of `apply_symbol_prefixes`, all mapping-file
events (create, write, flush) happen before every objcopy invocation: no
archive is ever rewritten against a missing or partially written mapping
file. -/
theorem c10_mapping_before_rewrite (env : BuildEnv) (c : Config) :
    List.Pairwise (fun a b => ¬(isObjcopyEvent a = true ∧ isFileEvent b = true))
      (apply_symbol_prefixes env c) := by
  rw [apply_symbol_prefixes]
  by_cases hemp : (static_libs env c).isEmpty = true
  · rw [if_pos hemp]
    exact List.pairwise_singleton _ _
  · rw [if_neg hemp]
    cases hnm : env.nmResult with
    | none =>
      refine List.pairwise_cons.mpr ⟨?_, List.pairwise_singleton _ _⟩
      intro b _ hc
      exact Bool.noConfusion hc.1
    | some out =>
      have hre : BuildEvent.runNm (static_libs env c) ::
          BuildEvent.createFile (mappingFilePath c) ::
          ((buildMappings (utf8Lossy out)).map
              (fun m => BuildEvent.writeLine (mappingFilePath c) m) ++
            BuildEvent.flushFile (mappingFilePath c) ::
              objcopyPhase env (redefineArg (mappingFilePath c)) (static_libs env c))
          = (BuildEvent.runNm (static_libs env c) ::
              BuildEvent.createFile (mappingFilePath c) ::
              ((buildMappings (utf8Lossy out)).map
                  (fun m => BuildEvent.writeLine (mappingFilePath c) m) ++
                [BuildEvent.flushFile (mappingFilePath c)])) ++
              objcopyPhase env (redefineArg (mappingFilePath c)) (static_libs env c) := by
        simp
      show List.Pairwise (fun a b => ¬(isObjcopyEvent a = true ∧ isFileEvent b = true))
        (BuildEvent.runNm (static_libs env c) ::
          BuildEvent.createFile (mappingFilePath c) ::
          ((buildMappings (utf8Lossy out)).map
              (fun m => BuildEvent.writeLine (mappingFilePath c) m) ++
            BuildEvent.flushFile (mappingFilePath c) ::
              objcopyPhase env (redefineArg (mappingFilePath c)) (static_libs env c)))
      rw [hre]
      refine pairwise_split _ _ ?_ ?_
      · intro a ha
        rcases List.mem_cons.mp ha with rfl | ha
        · rfl
        rcases List.mem_cons.mp ha with rfl | ha
        · rfl
        rcases List.mem_append.mp ha with ha | ha
        · rcases List.mem_map.mp ha with ⟨m, _, hm⟩
          rw [← hm]
          rfl
        · rcases List.mem_cons.mp ha with rfl | ha
          · rfl
          · exact absurd ha (List.not_mem_nil a)
      · intro b hb
        rcases objcopyPhase_events env _ (static_libs env c) b hb with ⟨l, hl⟩ | hl
        · rw [hl]
          rfl
        · rw [hl]
          rfl

end BoringSys
